import Mathlib

/-!
Verification of the research-digest metadata-extraction and ranking core.

The Python modules `src/analysers/metadata_extractor.py`,
`src/analysers/article_ranker.py` and `src/analysers/dictionaries.py` are
shallowly embedded below.  Strings are modelled as Lean `String`/`List Char`;
Python dicts keyed by strings are modelled as association lists in insertion
order (Python dicts preserve insertion order and have unique keys); article
records are association lists of dynamically typed values (`PyVal`).

Character classes: Python's `\w` (Unicode word character) and `str.lower()`
are modelled on the character repertoire this repository actually uses:
ASCII, the Latin-1 Supplement letters and the Latin Extended-A block
(macronised Māori place names).  `str.split()` whitespace is modelled by the
six ASCII whitespace characters Python recognises.
-/

/-- ASCII apostrophe, written via its code point. -/
def apostropheChar : Char := Char.ofNat 39

/-- Characters replaced by `re.sub(r'[_\-]+', ' ', text)`. -/
def isHyphUnd (c : Char) : Bool := c = '-' || c = '_'

/-- Python `str.split()` / regex `\s` whitespace (ASCII repertoire). -/
def isPySpace (c : Char) : Bool :=
  c = ' ' || c = '\t' || c = '\n' || c = '\x0d' || c = '\x0b' || c = '\x0c'

/-- Python regex `\w` (word character), restricted to the Latin repertoire
used by this repository: ASCII alphanumerics, underscore, Latin-1 letters
and Latin Extended-A. -/
def isWordChar (c : Char) : Bool :=
  ('a' ≤ c && c ≤ 'z') || ('A' ≤ c && c ≤ 'Z') || ('0' ≤ c && c ≤ '9') || c = '_' ||
  (0xC0 ≤ c.toNat && c.toNat ≤ 0x17F && !(c.toNat = 0xD7) && !(c.toNat = 0xF7))

/-- The Latin Extended-A Unicode block `Ā-ſ`. -/
def latinExtA (c : Char) : Bool := 0x100 ≤ c.toNat && c.toNat ≤ 0x17F

/-- Python `str.lower()` on the ASCII letters. -/
def pyToLower (c : Char) : Char :=
  if 'A' ≤ c && c ≤ 'Z' then Char.ofNat (c.toNat + 32) else c

/-- The quote-normalization step of `_normalize`: the typographic quote
characters become the ASCII apostrophe. -/
def mapQuote (c : Char) : Char :=
  if c = '‘' || c = '’' || c = '“' || c = '”' then apostropheChar else c

/-- The punctuation-stripping step of `_normalize`: any character that is not
a word character, whitespace, or Latin Extended-A becomes a space. -/
def stripPunct (c : Char) : Char :=
  if isWordChar c || isPySpace c || latinExtA c then c else ' '

/-- Worker for `subRuns`; the flag records whether we are inside a run of
characters satisfying `p` (for which a single `r` has already been emitted). -/
def subRunsGo (p : Char → Bool) (r : Char) : Bool → List Char → List Char
  | _, [] => []
  | inRun, c :: cs =>
    if p c then
      (if inRun then subRunsGo p r true cs else r :: subRunsGo p r true cs)
    else c :: subRunsGo p r false cs

/-- Embedding of a `re.sub` over a one-character-class-plus pattern:
replace every maximal run of characters satisfying
`p` by the single character `r`. -/
def subRuns (p : Char → Bool) (r : Char) (l : List Char) : List Char :=
  subRunsGo p r false l

/-- Worker for `pyWords`; `acc` is the reversed current word. -/
def wordsAux : List Char → List Char → List (List Char)
  | acc, [] => if acc.isEmpty then [] else [acc.reverse]
  | acc, c :: cs =>
    if isPySpace c then
      (if acc.isEmpty then wordsAux [] cs else acc.reverse :: wordsAux [] cs)
    else wordsAux (c :: acc) cs

/-- Python `text.split()`: maximal whitespace-free words, empties dropped. -/
def pySplit (l : List Char) : List (List Char) := wordsAux [] l

/-- Python `' '.join(ws)`. -/
def joinSp : List (List Char) → List Char
  | [] => []
  | [w] => w
  | w :: ws => w ++ ' ' :: joinSp ws

/-- The function `_normalize` from `metadata_extractor.py`, on character lists:
lowercase, collapse hyphen/underscore runs to a space, normalize quotes,
strip punctuation, then `' '.join(text.split())`. -/
def _normalizeList (l : List Char) : List Char :=
  if l.isEmpty then []
  else joinSp (pySplit (((subRuns isHyphUnd ' ' (l.map pyToLower)).map mapQuote).map stripPunct))

/-- The function `_normalize` on strings. -/
def _normalize (s : String) : String := ⟨_normalizeList s.data⟩

/-- The function `_normalize` applied to an optional (possibly `None`) string; Python's
`if not text: return ""` catches `None` as well as the empty string. -/
def _normalizeOpt : Option String → String
  | none => ""
  | some s => _normalize s

/-! ### The word-boundary regex of `_match_keywords`

`_match_keywords` searches `text_norm` with the pattern
`r'\b' + re.escape(alias_norm) + r'(?:s|es|ies)?\b'`.  `re.search` over this
pattern is embedded directly: a `\b` assertion holds at a position iff
exactly one of the two neighbouring characters is a word character
(start/end of text counting as non-word). -/

/-- Wordness of an optional neighbouring character (`none` = text edge). -/
def wordOpt (o : Option Char) : Bool := o.elim false isWordChar

/-- Python regex `\b`: a boundary lies between two neighbours iff their
wordness differs. -/
def isBoundary (a b : Option Char) : Bool := wordOpt a != wordOpt b

/-- The alternatives of `(?:s|es|ies)?`, including the empty suffix. -/
def pluralSuffixes : List (List Char) := [[], ['s'], ['e', 's'], ['i', 'e', 's']]

/-- The character to the left of the final `\b`: the last consumed pattern
character, or — if the pattern consumed nothing — the character before the
match position. -/
def endNeighbor (a : List Char) (prev : Option Char) : Option Char :=
  match a.getLast? with
  | some c => some c
  | none => prev

/-- Does `\b al (?:s|es|ies)? \b` match at the current position?
`prev` is the character just before the position, `rest` the remaining text. -/
def matchesAt (al : List Char) (prev : Option Char) (rest : List Char) : Bool :=
  isBoundary prev rest.head? &&
  pluralSuffixes.any (fun sfx =>
    (al ++ sfx).isPrefixOf rest &&
    isBoundary (endNeighbor (al ++ sfx) prev) ((rest.drop (al ++ sfx).length).head?))

/-- Scan of `re.search`: try the pattern at every position. -/
def searchFrom (al : List Char) : Option Char → List Char → Bool
  | prev, [] => matchesAt al prev []
  | prev, c :: cs => matchesAt al prev (c :: cs) || searchFrom al (some c) cs

/-- Embedding of the search `re.search` performs with the pattern built
from `re.escape` of the alias plus the plural suffixes and boundaries
(the al, being normalized, contains no regex metacharacters). -/
def regexSearch (al text : List Char) : Bool := searchFrom al none text

/-- The function `_match_keywords` from `metadata_extractor.py`: for each canonical label
in dictionary order, the label is emitted iff some al, normalized,
matches the normalized text under the word-boundary/plural pattern
(Python appends the canonical and `break`s at the first matching al). -/
def _match_keywords (text : String) (dictionary : List (String × List String)) : List String :=
  if text = "" then []
  else
    (dictionary.filter (fun e =>
      e.2.any (fun al =>
        regexSearch (_normalizeList al.data) (_normalizeList text.data)))).map Prod.fst

/-- The function `_match_keywords` on an optional text (`if not text: return []`). -/
def _match_keywordsOpt (text : Option String) (dictionary : List (String × List String)) :
    List String :=
  match text with
  | none => []
  | some s => _match_keywords s dictionary

/-! ### The dictionaries of `dictionaries.py`

Transcribed verbatim; the apostrophes of the Hawke's Bay entries are spelt
via `apostropheChar`. -/

/-- The canonical label `"Hawke's Bay"`. -/
def hawkesBayLabel : String := "Hawke" ++ ⟨[apostropheChar]⟩ ++ "s Bay"

/-- The dictionary entry `"hawke's bay"`. -/
def hawkesBayAlias : String := "hawke" ++ ⟨[apostropheChar]⟩ ++ "s bay"

/-- The dictionary `GEOGRAPHY_KEYWORDS` from `dictionaries.py`. -/
def GEOGRAPHY_KEYWORDS : List (String × List String) :=
  [("Auckland", ["auckland", "tāmaki makaurau", "tamaki makaurau", "waitematā", "waitemata"]),
   ("Wellington", ["wellington", "te whanganui-a-tara", "hutt valley", "lower hutt",
     "upper hutt", "porirua", "kapiti"]),
   ("Christchurch", ["christchurch", "ōtautahi", "otautahi", "greater christchurch",
     "canterbury"]),
   ("Tauranga", ["tauranga", "western bay of plenty", "mount maunganui", "bay of plenty"]),
   ("Hamilton-Waikato", ["hamilton", "kirikiriroa", "waikato", "future proof"]),
   ("Queenstown Lakes", ["queenstown", "queenstown lakes", "wanaka", "central otago"]),
   ("Rotorua", ["rotorua", "te arawa"]),
   (hawkesBayLabel, ["hawkes bay", hawkesBayAlias, "napier", "hastings", "te matau-a-māui"]),
   ("Northland", ["northland", "tai tokerau", "whangarei", "far north"]),
   ("Gisborne", ["gisborne", "tairāwhiti", "tairawhiti", "east coast"]),
   ("New Zealand", ["new zealand", "aotearoa", "nz"]),
   ("Australia", ["australia", "sydney", "melbourne", "brisbane", "victoria", "nsw"]),
   ("United Kingdom", ["united kingdom", "uk", "london", "england", "scotland"]),
   ("Canada", ["canada", "vancouver", "toronto", "british columbia"]),
   ("Ireland", ["ireland", "dublin"]),
   ("Minneapolis", ["minneapolis"]),
   ("California", ["california", "san francisco", "los angeles", "bay area", "sf bay area"]),
   ("Oregon", ["oregon", "portland", "portland, oregon"]),
   ("Vienna", ["vienna", "wien"]),
   ("Berlin", ["berlin"]),
   ("Germany", ["germany", "deutschland"]),
   ("Singapore", ["singapore"]),
   ("Sweden", ["sweden", "stockholm"]),
   ("Denmark", ["denmark", "copenhagen"]),
   ("Finland", ["finland", "helsinki"]),
   ("France", ["france", "paris"])]

/-- The dictionary `METHOD_KEYWORDS` from `dictionaries.py`. -/
def METHOD_KEYWORDS : List (String × List String) :=
  [("phenomenology-neo", ["hermann schmitz", "new phenomenology", "neo-phenomenology",
     "felt body", "corporeal", "leib", "situational atmosphere"]),
   ("phenomenology-general", ["phenomenology", "phenomenological", "lived experience",
     "embodiment", "merleau-ponty"]),
   ("counter-mapping", ["counter-mapping", "counter mapping", "deep mapping", "critical gis",
     "qualitative gis"]),
   ("spatial-justice", ["spatial justice", "right to the city", "socio-spatial"]),
   ("kaupapa-maori", ["kaupapa maori", "kaupapa māori", "mātauranga", "whakapapa",
     "mana whenua"]),
   ("talanoa", ["talanoa", "pacific methodology", "pasifika methodology"]),
   ("administrative-data", ["idi", "integrated data infrastructure", "admin data", "tax data",
     "census"]),
   ("spatial-analysis", ["spatial analysis", "gis", "geospatial", "remote sensing",
     "catchment analysis"]),
   ("econometrics", ["econometric", "regression", "difference-in-differences", "hedonic",
     "causal inference"]),
   ("survey-data", ["survey", "questionnaire", "cross-sectional", "household economic survey",
     "hes"]),
   ("mixed-methods", ["mixed methods", "mixed-methods", "triangulation"]),
   ("ethnography", ["ethnography", "ethnographic", "participant observation", "fieldwork"]),
   ("qualitative-general", ["qualitative", "semi-structured interview", "focus group",
     "thematic analysis", "content analysis"]),
   ("case-study", ["case study", "case-study", "multiple case studies"]),
   ("systematic-review", ["systematic review", "meta-analysis", "literature review",
     "scoping review"])]

/-- The dictionary `STAKEHOLDER_KEYWORDS` from `dictionaries.py`. -/
def STAKEHOLDER_KEYWORDS : List (String × List String) :=
  [("renters", ["tenant", "tenants", "renter", "renters", "rental"]),
   ("homeowners", ["homeowner", "homeowners", "owner-occupier", "owner occupier"]),
   ("landlords", ["landlord", "landlords", "private landlord"]),
   ("developers", ["developer", "developers", "housebuilder", "property developer"]),
   ("local-government", ["council", "local authority", "municipality", "city council"]),
   ("national-government", ["central government", "national government", "ministry",
     "federal government"]),
   ("planners", ["urban planner", "planning authority", "planner", "zoning"]),
   ("community-groups", ["community organisation", "community organization", "advocacy group",
     "resident association"]),
   ("housing-associations", ["housing association", "social housing", "public housing"]),
   ("kainga-ora", ["kainga ora", "kainga-ora", "kaingā ora"]),
   ("private-sector", ["private sector", "commercial", "market"]),
   ("public-sector", ["public sector", "state", "government intervention"]),
   ("non-profit", ["non-profit", "non profit", "ngo", "charity"])]

/-! ### Article records -/

/-- A dynamically typed Python value, as stored in an article record. -/
inductive PyVal where
  | str (s : String)
  | list (l : List String)
  | int (n : Int)
  | null
deriving DecidableEq

/-- A Python dict used as an article record: an association list in
insertion order with unique keys. -/
abbrev Article := List (String × PyVal)

/-- Field access `article.get(key, _)` for string-valued fields; a missing field or a
`None` value yields `''` (the pipeline stores only strings or `None` here,
and callers apply `or ''` to the abstract). -/
def getStr (a : Article) (k : String) : String :=
  match List.lookup k a with
  | some (PyVal.str s) => s
  | _ => ""

/-- Field access `article.get(key, [])` for list-valued fields; missing or `None` yields
`[]` (callers apply `or []` / truthiness checks). -/
def getList (a : Article) (k : String) : List String :=
  match List.lookup k a with
  | some (PyVal.list l) => l
  | _ => []

/-- Field access for the score: `article.get` of the score key with default 0. -/
def scoreOf (a : Article) : Int :=
  match List.lookup "score" a with
  | some (PyVal.int n) => n
  | _ => 0

/-! ### The metadata extractor (`metadata_extractor.py`) -/

/-- The three text sources of an extract function, in priority order:
`title`, `' '.join(keywords or [])`, `abstract or ''`. -/
def extractSources (a : Article) : List String :=
  [getStr a "title", String.intercalate " " (getList a "keywords"), getStr a "abstract"]

/-- The inner `for f in found: if f not in acc: acc.append(f)` loop. -/
def dedupAppend (acc found : List String) : List String :=
  found.foldl (fun ac f => if f ∈ ac then ac else ac ++ [f]) acc

/-- The source loop shared by `extract_geography` / `extract_methods` /
`extract_stakeholders`: accumulate deduplicated matches per source and stop
at the first source leaving the accumulator non-empty. -/
def extractLoop (dict : List (String × List String)) (acc : List String) :
    List String → List String
  | [] => acc
  | s :: rest =>
    let acc' := dedupAppend acc (_match_keywords s dict)
    if acc'.isEmpty then extractLoop dict acc' rest else acc'

/-- The function `extract_geography` from `metadata_extractor.py`. -/
def extract_geography (a : Article) : List String :=
  extractLoop GEOGRAPHY_KEYWORDS [] (extractSources a)

/-- The function `extract_methods` from `metadata_extractor.py`. -/
def extract_methods (a : Article) : List String :=
  extractLoop METHOD_KEYWORDS [] (extractSources a)

/-- The function `extract_stakeholders` from `metadata_extractor.py`. -/
def extract_stakeholders (a : Article) : List String :=
  extractLoop STAKEHOLDER_KEYWORDS [] (extractSources a)

/-- The function `extract_all` from `metadata_extractor.py`. -/
def extract_all (a : Article) : List (String × List String) :=
  [("geography", extract_geography a),
   ("methods", extract_methods a),
   ("stakeholders", extract_stakeholders a)]

/-! ### The article ranker (`article_ranker.py`) -/

/-- Python `str.lower()`. -/
def strLower (s : String) : String := ⟨s.data.map pyToLower⟩

/-- Python `str.replace('-', ' ')`. -/
def replaceHyphens (s : String) : String :=
  ⟨s.data.map (fun c => if c = '-' then ' ' else c)⟩

/-- Substring containment of `n` in a character list (Python `n in h`). -/
def listContains (n : List Char) : List Char → Bool
  | [] => n.isEmpty
  | c :: t => n.isPrefixOf (c :: t) || listContains n t

/-- Python `needle in hay` on strings. -/
def strContains (hay needle : String) : Bool := listContains needle.data hay.data

/-- Python `d[k] = v` on an insertion-ordered dict: overwrite in place if the
key is present, else append.  Also models `{**d, k: v}`. -/
def pySet {β : Type} (m : List (String × β)) (k : String) (v : β) : List (String × β) :=
  if m.any (fun e => e.1 = k) then m.map (fun e => if e.1 = k then (e.1, v) else e)
  else m ++ [(k, v)]

/-- The lowered boost dict field of the ranker, built by the constructor
as a dict comprehension over the lowercased keys; later case-variants
overwrite earlier ones. -/
def boost_keywords_lower (boost : List (String × Int)) : List (String × Int) :=
  boost.foldl (fun m e => pySet m (strLower e.1) e.2) []

/-- The combined search text of `_calculate_score`:
`f"{title} {keywords_text} {abstract_text}".replace('-', ' ')`. -/
def searchText (a : Article) : String :=
  let title := strLower (getStr a "title")
  let keywords := getList a "keywords"
  let keywordsText := if keywords.isEmpty then "" else strLower (String.intercalate " " keywords)
  let abstractText := strLower (getStr a "abstract")
  replaceHyphens (title ++ " " ++ keywordsText ++ " " ++ abstractText)

/-- The method `_calculate_score` from `article_ranker.py`: each entry of the lowered
boost dict adds its weight once iff its hyphen-normalized form is a
substring of the combined search text. -/
def _calculate_score (boost : List (String × Int)) (a : Article) : Int :=
  (boost_keywords_lower boost).foldl
    (fun score e => if strContains (searchText a) (replaceHyphens e.1) then score + e.2 else score)
    0

/-- Insert an article into a list sorted by score descending, after all
entries of greater-or-equal score (the stable position). -/
def insertDesc (a : Article) : List Article → List Article
  | [] => [a]
  | b :: bs => if scoreOf b ≤ scoreOf a then a :: b :: bs else b :: insertDesc a bs

/-- The stable descending-by-score sort performed by
`sorted(scored_articles, key=lambda x: x['score'], reverse=True)`
(Python's sort is stable; stable insertion sort yields the same list). -/
def sortScoreDesc : List Article → List Article
  | [] => []
  | a :: rest => insertDesc a (sortScoreDesc rest)

/-- The method `rank_articles` from `article_ranker.py`: annotate every article with its
score via `{**article, 'score': score}`, then stably sort descending. -/
def rank_articles (boost : List (String × Int)) (articles : List Article) : List Article :=
  sortScoreDesc (articles.map (fun a => pySet a "score" (PyVal.int (_calculate_score boost a))))

/-- Ascending insertion into a sorted integer list. -/
def insertAsc (x : Int) : List Int → List Int
  | [] => [x]
  | y :: ys => if x ≤ y then x :: y :: ys else y :: insertAsc x ys

/-- Python `sorted(scores)` (ascending). -/
def sortAsc (l : List Int) : List Int := l.foldr insertAsc []

/-- The method `get_statistics` from `article_ranker.py`.  The returned Python dict is
modelled as an association list; the float mean is modelled as an exact
rational.  Note the empty-input branch returns only four fields. -/
def get_statistics (articles : List Article) : List (String × ℚ) :=
  if articles.isEmpty then [("min", 0), ("max", 0), ("mean", 0), ("median", 0)]
  else
    let scores := articles.map scoreOf
    let ss := sortAsc scores
    [("min", ((ss.headD 0 : ℤ) : ℚ)),
     ("max", ((ss.getLastD 0 : ℤ) : ℚ)),
     ("mean", (scores.sum : ℚ) / (scores.length : ℚ)),
     ("median", ((ss.getD (scores.length / 2) 0 : ℤ) : ℚ)),
     ("total_articles", (articles.length : ℚ)),
     ("zero_score", ((scores.countP (fun s => s = 0) : ℕ) : ℚ))]

/-! ### Spec-side definitions

These definitions follow the wording of the specification, for the
refinement-style claims; each is compared with the corresponding
source-derived definition above. -/

/-- Spec 4.3: the first source whose match list is non-empty supplies the
whole result; if none matches, the result is empty. -/
def firstNonEmpty : List (List String) → List String
  | [] => []
  | m :: rest => if m.isEmpty then firstNonEmpty rest else m

/-- Spec 4.4 scoring, as the claim words it: the sum, over the boost
phrases, of the weights of exactly those phrases whose lowercased,
hyphens-replaced-by-spaces form occurs as a substring of the combined
search string — each phrase contributing once. -/
def claimScore (boost : List (String × Int)) (a : Article) : Int :=
  (boost.map (fun e =>
    if strContains (searchText a) (replaceHyphens (strLower e.1)) then e.2 else 0)).sum

/-- Remove trailing whitespace. -/
def trimTrail : List Char → List Char
  | [] => []
  | c :: cs =>
    if isPySpace c && (trimTrail cs).isEmpty then [] else c :: trimTrail cs

/-- Spec 4.1 final step, as the claim words it: collapse every whitespace
run to a single space and trim leading and trailing whitespace. -/
def specCollapse (l : List Char) : List Char :=
  trimTrail ((subRuns isPySpace ' ' l).dropWhile isPySpace)

/-- Modelled from the spec's wording of `normalize` (section 4.1 / claim C9):
null or empty input to the empty string; otherwise lowercase, replace every
run of hyphens/underscores by a single space, normalize typographic quotes
to the ASCII apostrophe, replace every character that is not a word
character, whitespace or Latin Extended-A by a space, and collapse
whitespace runs to single spaces, trimmed. -/
def spec_normalize : Option String → String
  | none => ""
  | some s =>
    if s = "" then ""
    else ⟨specCollapse (((subRuns isHyphUnd ' ' (s.data.map pyToLower)).map mapQuote).map
      stripPunct)⟩

/-! ## Helper lemmas: ascending sort -/

theorem insertAsc_perm (x : Int) (l : List Int) : List.Perm (insertAsc x l) (x :: l) := by
  induction l with
  | nil => exact List.Perm.refl _
  | cons y ys ih =>
    rw [insertAsc]
    split
    · exact List.Perm.refl _
    · exact (List.Perm.cons y ih).trans (List.Perm.swap x y ys)

theorem sortAsc_perm (l : List Int) : List.Perm (sortAsc l) l := by
  induction l with
  | nil => exact List.Perm.refl _
  | cons x xs ih =>
    exact ((insertAsc_perm x (sortAsc xs)).trans (List.Perm.cons x ih))

theorem mem_insertAsc {x y : Int} {l : List Int} (h : y ∈ insertAsc x l) :
    y = x ∨ y ∈ l := by
  have := (insertAsc_perm x l).subset h
  simpa using this

theorem insertAsc_sorted {x : Int} {l : List Int} (h : List.Sorted (· ≤ ·) l) :
    List.Sorted (· ≤ ·) (insertAsc x l) := by
  induction l with
  | nil => simp [insertAsc]
  | cons y ys ih =>
    rw [insertAsc]
    split
    · rename_i hxy
      refine List.sorted_cons.mpr ⟨?_, h⟩
      intro b hb
      rcases List.mem_cons.mp hb with hb | hb
      · exact hb ▸ hxy
      · exact le_trans hxy (List.rel_of_sorted_cons h b hb)
    · rename_i hxy
      push_neg at hxy
      have hys : List.Sorted (· ≤ ·) ys := h.of_cons
      refine List.sorted_cons.mpr ⟨?_, ih hys⟩
      intro b hb
      rcases mem_insertAsc hb with hb | hb
      · exact hb ▸ le_of_lt hxy
      · exact List.rel_of_sorted_cons h b hb

theorem sortAsc_sorted (l : List Int) : List.Sorted (· ≤ ·) (sortAsc l) := by
  induction l with
  | nil => simp [sortAsc]
  | cons x xs ih => exact insertAsc_sorted ih

theorem sorted_headD_le {l : List Int} (h : List.Sorted (· ≤ ·) l) :
    ∀ x ∈ l, l.headD 0 ≤ x := by
  intro x hx
  cases l with
  | nil => simp at hx
  | cons y ys =>
    rcases List.mem_cons.mp hx with hx | hx
    · simp [hx]
    · exact List.rel_of_sorted_cons h x hx

theorem sorted_le_getLastD {l : List Int} (h : List.Sorted (· ≤ ·) l) :
    ∀ x ∈ l, x ≤ l.getLastD 0 := by
  induction l with
  | nil => simp
  | cons y ys ih =>
    intro x hx
    cases ys with
    | nil =>
      have : x = y := by simpa using hx
      simp [this]
    | cons z zs =>
      rcases List.mem_cons.mp hx with hx | hx
      · subst hx
        have hz : x ≤ z := List.rel_of_sorted_cons h z (by simp)
        have := ih h.of_cons z (by simp)
        simpa using le_trans hz this
      · have := ih h.of_cons x hx
        simpa using this

theorem headD_mem {l : List Int} (h : l ≠ []) : l.headD 0 ∈ l := by
  cases l with
  | nil => exact absurd rfl h
  | cons y ys => simp

theorem getLastD_mem {l : List Int} (h : l ≠ []) : l.getLastD 0 ∈ l := by
  induction l with
  | nil => exact absurd rfl h
  | cons y ys ih =>
    cases ys with
    | nil => simp
    | cons z zs =>
      have := ih (by simp)
      simpa using Or.inr this

/-! ## Claims C3 and C4: `get_statistics` -/

/-- Claim C3 (amended): on a non-empty article list, `get_statistics` reports
the true minimum and maximum score, the arithmetic mean `sum/length`, the
count of zero scores, the total count, and as median the element at index
`⌊n/2⌋` of the ascending-sorted score list — which for even length is the
upper-middle element, not the lower-middle one. -/
theorem get_statistics_nonempty (articles : List Article) (h : articles ≠ []) :
    ∃ m M : ℤ,
      List.lookup "min" (get_statistics articles) = some (m : ℚ) ∧
      m ∈ articles.map scoreOf ∧ (∀ x ∈ articles.map scoreOf, m ≤ x) ∧
      List.lookup "max" (get_statistics articles) = some (M : ℚ) ∧
      M ∈ articles.map scoreOf ∧ (∀ x ∈ articles.map scoreOf, x ≤ M) ∧
      List.lookup "mean" (get_statistics articles) =
        some (((articles.map scoreOf).sum : ℚ) / ((articles.map scoreOf).length : ℚ)) ∧
      List.lookup "median" (get_statistics articles) =
        some (((sortAsc (articles.map scoreOf)).getD ((articles.map scoreOf).length / 2) 0 :
          ℤ) : ℚ) ∧
      List.Perm (sortAsc (articles.map scoreOf)) (articles.map scoreOf) ∧
      List.Sorted (· ≤ ·) (sortAsc (articles.map scoreOf)) ∧
      List.lookup "total_articles" (get_statistics articles) = some ((articles.length : ℕ) : ℚ) ∧
      List.lookup "zero_score" (get_statistics articles) =
        some (((articles.map scoreOf).countP (fun s => s = 0) : ℕ) : ℚ) := by
  have hne : articles.isEmpty = false := by
    cases articles with
    | nil => exact absurd rfl h
    | cons a rest => rfl
  have hscne : articles.map scoreOf ≠ [] := by
    cases articles with
    | nil => exact absurd rfl h
    | cons a rest => simp
  have hsne : sortAsc (articles.map scoreOf) ≠ [] := by
    intro hs
    have hp := sortAsc_perm (articles.map scoreOf)
    rw [hs] at hp
    exact hscne hp.symm.eq_nil
  refine ⟨(sortAsc (articles.map scoreOf)).headD 0,
          (sortAsc (articles.map scoreOf)).getLastD 0, ?_⟩
  have hperm := sortAsc_perm (articles.map scoreOf)
  have hsorted := sortAsc_sorted (articles.map scoreOf)
  refine ⟨?_, ?_, ?_, ?_, ?_, ?_, ?_, ?_, hperm, hsorted, ?_, ?_⟩
  · simp [get_statistics, hne, List.lookup]
  · exact hperm.subset (headD_mem hsne)
  · intro x hx
    exact sorted_headD_le hsorted x (hperm.mem_iff.mpr hx)
  · simp [get_statistics, hne, List.lookup]
  · exact hperm.subset (getLastD_mem hsne)
  · intro x hx
    exact sorted_le_getLastD hsorted x (hperm.mem_iff.mpr hx)
  · simp [get_statistics, hne, List.lookup]
  · simp [get_statistics, hne, List.lookup]
  · simp [get_statistics, hne, List.lookup]
  · simp [get_statistics, hne, List.lookup]

/-- Witness for C3's amended theorem at articles with scores `[0, 10]`. -/
theorem get_statistics_nonempty_witness :
    ([[("score", PyVal.int 0)], [("score", PyVal.int 10)]] : List Article) ≠ [] ∧
    (∃ m M : ℤ,
      List.lookup "min"
        (get_statistics [[("score", PyVal.int 0)], [("score", PyVal.int 10)]]) = some (m : ℚ) ∧
      m ∈ ([[("score", PyVal.int 0)], [("score", PyVal.int 10)]] : List Article).map scoreOf ∧
      (∀ x ∈ ([[("score", PyVal.int 0)], [("score", PyVal.int 10)]] : List Article).map scoreOf,
        m ≤ x) ∧
      List.lookup "max"
        (get_statistics [[("score", PyVal.int 0)], [("score", PyVal.int 10)]]) = some (M : ℚ) ∧
      M ∈ ([[("score", PyVal.int 0)], [("score", PyVal.int 10)]] : List Article).map scoreOf ∧
      (∀ x ∈ ([[("score", PyVal.int 0)], [("score", PyVal.int 10)]] : List Article).map scoreOf,
        x ≤ M) ∧
      List.lookup "mean"
        (get_statistics [[("score", PyVal.int 0)], [("score", PyVal.int 10)]]) =
        some (((([[("score", PyVal.int 0)], [("score", PyVal.int 10)]] :
          List Article).map scoreOf).sum : ℚ) /
          ((([[("score", PyVal.int 0)], [("score", PyVal.int 10)]] :
          List Article).map scoreOf).length : ℚ)) ∧
      List.lookup "median"
        (get_statistics [[("score", PyVal.int 0)], [("score", PyVal.int 10)]]) =
        some (((sortAsc (([[("score", PyVal.int 0)], [("score", PyVal.int 10)]] :
          List Article).map scoreOf)).getD
          ((([[("score", PyVal.int 0)], [("score", PyVal.int 10)]] :
          List Article).map scoreOf).length / 2) 0 : ℤ) : ℚ) ∧
      List.Perm
        (sortAsc (([[("score", PyVal.int 0)], [("score", PyVal.int 10)]] :
          List Article).map scoreOf))
        (([[("score", PyVal.int 0)], [("score", PyVal.int 10)]] : List Article).map scoreOf) ∧
      List.Sorted (· ≤ ·) (sortAsc (([[("score", PyVal.int 0)], [("score", PyVal.int 10)]] :
        List Article).map scoreOf)) ∧
      List.lookup "total_articles"
        (get_statistics [[("score", PyVal.int 0)], [("score", PyVal.int 10)]]) =
        some ((([[("score", PyVal.int 0)], [("score", PyVal.int 10)]] :
          List Article).length : ℕ) : ℚ) ∧
      List.lookup "zero_score"
        (get_statistics [[("score", PyVal.int 0)], [("score", PyVal.int 10)]]) =
        some (((([[("score", PyVal.int 0)], [("score", PyVal.int 10)]] :
          List Article).map scoreOf).countP (fun s => s = 0) : ℕ) : ℚ)) :=
  ⟨by simp, get_statistics_nonempty _ (by simp)⟩

/-- Counterexample for C3 as stated: with scores `[0, 10]` the reported
median is the element at index `n/2 = 1` of the ascending-sorted scores
(the value `10`), not the lower-middle element at index `n/2 - 1 = 0`
(the value `0`). -/
theorem get_statistics_median_not_lower_middle :
    List.lookup "median" (get_statistics [[("score", PyVal.int 0)], [("score", PyVal.int 10)]]) ≠
      some (((sortAsc (([[("score", PyVal.int 0)], [("score", PyVal.int 10)]] :
        List Article).map scoreOf)).getD
        ((([[("score", PyVal.int 0)], [("score", PyVal.int 10)]] :
        List Article).map scoreOf).length / 2 - 1) 0 : ℤ) : ℚ) := by
  decide

/-- Claim C4 (amended): `get_statistics` on the empty list returns, without
error, only the four fields `min`, `max`, `mean`, `median`, all zero; the
`total_articles` and `zero_score` fields are absent (see the
counterexample). -/
theorem get_statistics_empty :
    get_statistics [] = [("min", 0), ("max", 0), ("mean", 0), ("median", 0)] := rfl

/-- Counterexample for C4 as stated: the empty-input result has no
`total_articles` field, so its shape differs from the non-empty six-field
shape the claim asserts. -/
theorem get_statistics_empty_missing_field :
    List.lookup "total_articles" (get_statistics []) = none ∧
    List.lookup "zero_score" (get_statistics []) = none := by
  constructor <;> rfl

/-! ## Helper lemmas: the dictionary matcher -/

theorem match_keywords_sublist (t : String) (D : List (String × List String)) :
    (_match_keywords t D).Sublist (D.map Prod.fst) := by
  unfold _match_keywords
  split
  · exact List.nil_sublist _
  · exact List.Sublist.map Prod.fst (List.filter_sublist D)

theorem match_keywords_nodup {D : List (String × List String)} (t : String)
    (hD : (D.map Prod.fst).Nodup) : (_match_keywords t D).Nodup :=
  (match_keywords_sublist t D).nodup hD

/-! ## Claim C5: the matcher contract -/

/-- Claim C5: `_match_keywords` returns canonical labels drawn only from the
dictionary's key set, each at most once, in dictionary iteration order (a
sublist of the key list), and empty or null text yields the empty result. -/
theorem match_keywords_contract (t : String) (D : List (String × List String))
    (hD : (D.map Prod.fst).Nodup) :
    (_match_keywords t D).Sublist (D.map Prod.fst) ∧
    (_match_keywords t D).Nodup ∧
    (∀ x ∈ _match_keywords t D, x ∈ D.map Prod.fst) ∧
    _match_keywords "" D = [] ∧
    _match_keywordsOpt none D = [] :=
  ⟨match_keywords_sublist t D, match_keywords_nodup t hD,
   fun _ hx => (match_keywords_sublist t D).subset hx, rfl, rfl⟩

/-- Witness for C5 on the methods dictionary and a concrete text. -/
theorem match_keywords_contract_witness :
    (METHOD_KEYWORDS.map Prod.fst).Nodup ∧
    ((_match_keywords "a survey of tenants" METHOD_KEYWORDS).Sublist
      (METHOD_KEYWORDS.map Prod.fst) ∧
    (_match_keywords "a survey of tenants" METHOD_KEYWORDS).Nodup ∧
    (∀ x ∈ _match_keywords "a survey of tenants" METHOD_KEYWORDS,
      x ∈ METHOD_KEYWORDS.map Prod.fst) ∧
    _match_keywords "" METHOD_KEYWORDS = [] ∧
    _match_keywordsOpt none METHOD_KEYWORDS = []) :=
  ⟨by decide, match_keywords_contract "a survey of tenants" METHOD_KEYWORDS (by decide)⟩

/-! ## Helper lemmas: the extraction loop -/

theorem dedupAppend_of_nodup :
    ∀ (l acc : List String), (acc ++ l).Nodup → dedupAppend acc l = acc ++ l := by
  intro l
  induction l with
  | nil => intro acc _; simp [dedupAppend]
  | cons f fs ih =>
    intro acc h
    have hf : f ∉ acc := by
      intro hmem
      exact (List.disjoint_of_nodup_append h) hmem (by simp)
    have h' : ((acc ++ [f]) ++ fs).Nodup := by
      simpa [List.append_assoc] using h
    calc dedupAppend acc (f :: fs)
        = dedupAppend (acc ++ [f]) fs := by
          simp [dedupAppend, hf]
      _ = (acc ++ [f]) ++ fs := ih (acc ++ [f]) h'
      _ = acc ++ f :: fs := by simp [List.append_assoc]

theorem extractLoop_eq_firstNonEmpty {D : List (String × List String)}
    (hD : (D.map Prod.fst).Nodup) :
    ∀ srcs : List String,
      extractLoop D [] srcs = firstNonEmpty (srcs.map (fun s => _match_keywords s D)) := by
  intro srcs
  induction srcs with
  | nil => rfl
  | cons s rest ih =>
    have hnd : _match_keywords s D = dedupAppend [] (_match_keywords s D) := by
      rw [dedupAppend_of_nodup _ [] (by simpa using match_keywords_nodup s hD)]
      simp
    rw [extractLoop, List.map_cons, firstNonEmpty]
    rw [← hnd]
    by_cases hempty : (_match_keywords s D).isEmpty
    · simp only [hempty, if_pos, ih]
      have : (_match_keywords s D).isEmpty = true := hempty
      simp only [List.isEmpty_iff.mp this, List.isEmpty_nil, if_pos]
      exact ih
    · have hb : (_match_keywords s D).isEmpty = false := by
        simpa using hempty
      simp [hb]

/-! ## Claim C1: per-taxonomy early termination across sources -/

/-- Claim C1: for each taxonomy, extraction runs the matcher over title,
space-joined keywords, then abstract; the first source with matches
supplies the whole result (no merging), else the result is empty.  In
particular, a title matching `Auckland` with an abstract matching only
`Wellington` yields exactly `["Auckland"]`. -/
theorem extract_first_source_wins (a : Article) :
    extract_geography a =
      firstNonEmpty ((extractSources a).map (fun s => _match_keywords s GEOGRAPHY_KEYWORDS)) ∧
    extract_methods a =
      firstNonEmpty ((extractSources a).map (fun s => _match_keywords s METHOD_KEYWORDS)) ∧
    extract_stakeholders a =
      firstNonEmpty ((extractSources a).map (fun s => _match_keywords s STAKEHOLDER_KEYWORDS)) ∧
    extract_all a =
      [("geography", extract_geography a), ("methods", extract_methods a),
       ("stakeholders", extract_stakeholders a)] ∧
    _match_keywords "housing in auckland" GEOGRAPHY_KEYWORDS = ["Auckland"] ∧
    _match_keywords "a study of wellington" GEOGRAPHY_KEYWORDS = ["Wellington"] ∧
    extract_geography [("title", PyVal.str "housing in auckland"),
      ("abstract", PyVal.str "a study of wellington")] = ["Auckland"] :=
  ⟨extractLoop_eq_firstNonEmpty (by decide) _,
   extractLoop_eq_firstNonEmpty (by decide) _,
   extractLoop_eq_firstNonEmpty (by decide) _,
   rfl, by decide, by decide, by decide⟩

/-! ## Helper lemmas: the boost dictionary and scoring -/

theorem pySet_of_not_mem {β : Type} {m : List (String × β)} {k : String} (v : β)
    (h : k ∉ m.map Prod.fst) : pySet m k v = m ++ [(k, v)] := by
  have : m.any (fun e => e.1 = k) = false := by
    rw [List.any_eq_false]
    intro e he
    simp only [decide_eq_true_eq]
    intro hk
    exact h (hk ▸ List.mem_map_of_mem Prod.fst he)
  simp [pySet, this]

theorem boost_lower_foldl :
    ∀ (bs : List (String × Int)) (m : List (String × Int)),
      (∀ e ∈ bs, strLower e.1 ∉ m.map Prod.fst) →
      (bs.map (fun e => strLower e.1)).Nodup →
      bs.foldl (fun m e => pySet m (strLower e.1) e.2) m =
        m ++ bs.map (fun e => (strLower e.1, e.2)) := by
  intro bs
  induction bs with
  | nil => intro m _ _; simp
  | cons e es ih =>
    intro m hmem hnod
    have hk : strLower e.1 ∉ m.map Prod.fst := hmem e (by simp)
    rw [List.foldl_cons, pySet_of_not_mem e.2 hk]
    rw [ih (m ++ [(strLower e.1, e.2)]) ?_ ?_]
    · simp [List.append_assoc]
    · intro e' he'
      simp only [List.map_append, List.mem_append]
      rintro (hin | hin)
      · exact hmem e' (by simp [he']) hin
      · simp only [List.map_cons, List.map_nil, List.mem_singleton] at hin
        rw [List.map_cons, List.nodup_cons] at hnod
        exact hnod.1 (hin ▸ List.mem_map_of_mem (fun x => strLower x.1) he')
    · rw [List.map_cons, List.nodup_cons] at hnod
      exact hnod.2

theorem boost_keywords_lower_of_nodup (bs : List (String × Int))
    (h : (bs.map (fun e => strLower e.1)).Nodup) :
    boost_keywords_lower bs = bs.map (fun e => (strLower e.1, e.2)) := by
  unfold boost_keywords_lower
  rw [boost_lower_foldl bs [] (by simp) h]
  simp

theorem foldl_cond_sum (p : String × Int → Bool) :
    ∀ (l : List (String × Int)) (init : Int),
      l.foldl (fun sc e => if p e then sc + e.2 else sc) init =
        init + (l.map (fun e => if p e then e.2 else 0)).sum := by
  intro l
  induction l with
  | nil => intro init; simp
  | cons e es ih =>
    intro init
    rw [List.foldl_cons]
    by_cases hp : p e
    · rw [if_pos hp, ih]
      simp [hp, add_assoc]
    · rw [if_neg hp, ih]
      simp [hp]

/-! ## Claim C2: the scoring sum -/

/-- Claim C2 (amended): provided the boost phrases remain pairwise distinct
after lowercasing (Python's dict comprehension collapses case-variant
phrases, keeping only the last), an article's score is the sum of the
weights of exactly those boost phrases whose lowercased,
hyphens-replaced-by-spaces form is a substring of the combined search
string, each contributing once. -/
theorem calculate_score_eq_claim (boost : List (String × Int)) (a : Article)
    (h : (boost.map (fun e => strLower e.1)).Nodup) :
    _calculate_score boost a = claimScore boost a := by
  unfold _calculate_score claimScore
  rw [boost_keywords_lower_of_nodup boost h]
  rw [foldl_cond_sum (fun e => strContains (searchText a) (replaceHyphens e.1))]
  rw [List.map_map]
  simp [Function.comp_def]

/-- Witness for C2's amended theorem: the claim's own example scores 70. -/
theorem calculate_score_eq_claim_witness :
    (([("housing-policy", (40 : Int)), ("affordability", 30)].map
      (fun e => strLower e.1)).Nodup) ∧
    _calculate_score [("housing-policy", 40), ("affordability", 30)]
      [("title", PyVal.str "Housing policy and housing affordability")] = 70 :=
  ⟨by decide,
   (calculate_score_eq_claim [("housing-policy", 40), ("affordability", 30)]
     [("title", PyVal.str "Housing policy and housing affordability")] (by decide)).trans
     (by decide)⟩

/-- Counterexample for C2 as stated: with boost `{"A": 10, "a": 20}` both
phrases' lowercased forms occur in the title `"a"`, so the claimed sum is
30, but the code's lowercased dict collapses the two keys and scores 20. -/
theorem calculate_score_ne_claim :
    _calculate_score [("A", 10), ("a", 20)] [("title", PyVal.str "a")] = 20 ∧
    claimScore [("A", 10), ("a", 20)] [("title", PyVal.str "a")] = 30 ∧
    _calculate_score [("A", 10), ("a", 20)] [("title", PyVal.str "a")] ≠
      claimScore [("A", 10), ("a", 20)] [("title", PyVal.str "a")] := by
  refine ⟨by decide, by decide, by decide⟩

/-! ## Helper lemmas: the descending rank sort -/

theorem insertDesc_perm (a : Article) (l : List Article) :
    List.Perm (insertDesc a l) (a :: l) := by
  induction l with
  | nil => exact List.Perm.refl _
  | cons b bs ih =>
    rw [insertDesc]
    split
    · exact List.Perm.refl _
    · exact (List.Perm.cons b ih).trans (List.Perm.swap a b bs)

theorem sortScoreDesc_perm (l : List Article) : List.Perm (sortScoreDesc l) l := by
  induction l with
  | nil => exact List.Perm.refl _
  | cons a rest ih =>
    exact (insertDesc_perm a (sortScoreDesc rest)).trans (List.Perm.cons a ih)

theorem mem_insertDesc {a x : Article} {l : List Article} (h : x ∈ insertDesc a l) :
    x = a ∨ x ∈ l := by
  have := (insertDesc_perm a l).subset h
  simpa using this

theorem insertDesc_pairwise {a : Article} {l : List Article}
    (h : l.Pairwise (fun x y => scoreOf y ≤ scoreOf x)) :
    (insertDesc a l).Pairwise (fun x y => scoreOf y ≤ scoreOf x) := by
  induction l with
  | nil => simp [insertDesc]
  | cons b bs ih =>
    rw [insertDesc]
    split
    · rename_i hba
      refine List.Pairwise.cons ?_ h
      intro y hy
      rcases List.mem_cons.mp hy with hy | hy
      · exact hy ▸ hba
      · exact le_trans (List.rel_of_pairwise_cons h hy) hba
    · rename_i hba
      push_neg at hba
      refine List.Pairwise.cons ?_ (ih (List.Pairwise.of_cons h))
      intro y hy
      rcases mem_insertDesc hy with hy | hy
      · exact hy ▸ le_of_lt hba
      · exact List.rel_of_pairwise_cons h hy

theorem sortScoreDesc_pairwise (l : List Article) :
    (sortScoreDesc l).Pairwise (fun x y => scoreOf y ≤ scoreOf x) := by
  induction l with
  | nil => simp [sortScoreDesc]
  | cons a rest ih => exact insertDesc_pairwise ih

theorem filter_insertDesc (s : Int) (a : Article) (l : List Article) :
    (insertDesc a l).filter (fun x => scoreOf x = s) =
      if scoreOf a = s then a :: l.filter (fun x => scoreOf x = s)
      else l.filter (fun x => scoreOf x = s) := by
  induction l with
  | nil =>
    by_cases hpa : scoreOf a = s <;> simp [insertDesc, hpa]
  | cons b bs ih =>
    rw [insertDesc]
    split
    · rename_i hba
      by_cases hpa : scoreOf a = s <;> simp [hpa]
    · rename_i hba
      push_neg at hba
      by_cases hpa : scoreOf a = s
      · have hpb : ¬(scoreOf b = s) := by
          intro hb
          rw [hpa] at hba
          rw [hb] at hba
          exact lt_irrefl s hba
        simp [hpa, hpb, ih]
      · by_cases hpb : scoreOf b = s <;> simp [hpa, hpb, ih]

theorem filter_sortScoreDesc (s : Int) (l : List Article) :
    (sortScoreDesc l).filter (fun x => scoreOf x = s) = l.filter (fun x => scoreOf x = s) := by
  induction l with
  | nil => rfl
  | cons a rest ih =>
    rw [sortScoreDesc, filter_insertDesc]
    by_cases hpa : scoreOf a = s <;> simp [hpa, ih]

/-! ## Helper lemmas: `pySet` (Python dict update / `{**d, k: v}`) -/

theorem any_key_iff {β : Type} (m : List (String × β)) (k : String) :
    (m.any (fun e => e.1 = k)) = true ↔ k ∈ m.map Prod.fst := by
  simp [List.any_eq_true]

theorem lookup_cons {β : Type} (k : String) (e : String × β) (es : List (String × β)) :
    List.lookup k (e :: es) = if k = e.1 then some e.2 else List.lookup k es := by
  by_cases h : k = e.1
  · have hb : (k == e.1) = true := by simpa using h
    simp [List.lookup, hb, h]
  · have hb : (k == e.1) = false := by simpa using h
    simp [List.lookup, hb, h]

theorem lookup_mapReplace {β : Type} {k : String} (v : β) :
    ∀ m : List (String × β), (m.any (fun e => e.1 = k)) = true →
      List.lookup k (m.map (fun e => if e.1 = k then (e.1, v) else e)) = some v := by
  intro m
  induction m with
  | nil => intro h; simp at h
  | cons e es ih =>
    intro h
    by_cases he : e.1 = k
    · rw [List.map_cons, if_pos he, lookup_cons, if_pos (Eq.symm he)]
    · have hes : (es.any (fun e => e.1 = k)) = true := by
        simpa [he] using h
      rw [List.map_cons, if_neg he, lookup_cons, if_neg (Ne.symm he)]
      exact ih hes

theorem lookup_append_single {β : Type} {k : String} (v : β) :
    ∀ m : List (String × β), k ∉ m.map Prod.fst →
      List.lookup k (m ++ [(k, v)]) = some v := by
  intro m
  induction m with
  | nil => intro _; simp [List.lookup]
  | cons e es ih =>
    intro h
    have he : e.1 ≠ k := by
      intro hk
      exact h (hk ▸ List.mem_map_of_mem Prod.fst (by simp))
    rw [List.cons_append, lookup_cons, if_neg (Ne.symm he)]
    exact ih (by simp at h; simpa using h.2)

theorem lookup_pySet {β : Type} (m : List (String × β)) (k : String) (v : β) :
    List.lookup k (pySet m k v) = some v := by
  unfold pySet
  by_cases h : (m.any (fun e => e.1 = k)) = true
  · simp only [h, if_pos]
    exact lookup_mapReplace v m h
  · have hb : (m.any (fun e => e.1 = k)) = false := Bool.eq_false_iff.mpr h
    have hnot : k ∉ m.map Prod.fst := fun hm => h ((any_key_iff m k).mpr hm)
    simp only [hb, Bool.false_eq_true, if_neg, not_false_iff]
    exact lookup_append_single v m hnot

theorem filter_mapReplace {β : Type} {k : String} (v : β) :
    ∀ m : List (String × β),
      (m.map (fun e => if e.1 = k then (e.1, v) else e)).filter (fun e => e.1 ≠ k) =
        m.filter (fun e => e.1 ≠ k) := by
  intro m
  induction m with
  | nil => rfl
  | cons e es ih =>
    by_cases he : e.1 = k
    · simpa [he] using ih
    · simpa [he] using ih

theorem filter_pySet {β : Type} (m : List (String × β)) (k : String) (v : β) :
    (pySet m k v).filter (fun e => e.1 ≠ k) = m.filter (fun e => e.1 ≠ k) := by
  unfold pySet
  split
  · exact filter_mapReplace v m
  · simp

theorem scoreOf_pySet (a : Article) (n : Int) :
    scoreOf (pySet a "score" (PyVal.int n)) = n := by
  unfold scoreOf
  rw [lookup_pySet]

/-! ## Claim C7: descending stable ranking -/

/-- Claim C7: `rank_articles` returns the score-annotated articles sorted by
score descending; ties keep the relative order of the input (the filter at
any fixed score equals the filter of the unsorted annotated list); and with
the empty boost configuration every article scores 0 and the input order is
preserved exactly. -/
theorem rank_articles_sorted_stable (boost : List (String × Int)) (arts : List Article) :
    (rank_articles boost arts).Pairwise (fun x y => scoreOf y ≤ scoreOf x) ∧
    List.Perm (rank_articles boost arts)
      (arts.map (fun a => pySet a "score" (PyVal.int (_calculate_score boost a)))) ∧
    (∀ s : Int,
      (rank_articles boost arts).filter (fun x => scoreOf x = s) =
        (arts.map (fun a => pySet a "score" (PyVal.int (_calculate_score boost a)))).filter
          (fun x => scoreOf x = s)) ∧
    rank_articles [] arts = arts.map (fun a => pySet a "score" (PyVal.int 0)) := by
  refine ⟨sortScoreDesc_pairwise _, sortScoreDesc_perm _,
    fun s => filter_sortScoreDesc s _, ?_⟩
  have hmem : ∀ x ∈ arts.map (fun a => pySet a "score" (PyVal.int 0)), scoreOf x = 0 := by
    intro x hx
    rcases List.mem_map.mp hx with ⟨a, _, rfl⟩
    exact scoreOf_pySet a 0
  have hrank : rank_articles [] arts =
      sortScoreDesc (arts.map (fun a => pySet a "score" (PyVal.int 0))) := rfl
  rw [hrank]
  have h1 : (sortScoreDesc (arts.map (fun a => pySet a "score" (PyVal.int 0)))).filter
      (fun x => scoreOf x = 0) =
      sortScoreDesc (arts.map (fun a => pySet a "score" (PyVal.int 0))) := by
    refine List.filter_eq_self.mpr ?_
    intro x hx
    have := (sortScoreDesc_perm _).subset hx
    simp [hmem x this]
  have h2 : (arts.map (fun a => pySet a "score" (PyVal.int 0))).filter
      (fun x => scoreOf x = 0) = arts.map (fun a => pySet a "score" (PyVal.int 0)) := by
    refine List.filter_eq_self.mpr ?_
    intro x hx
    simp [hmem x hx]
  rw [← h1, filter_sortScoreDesc, h2]

/-! ## Claim C10: ranking adds only the score field -/

/-- Claim C10: `rank_articles` does not mutate its input (the embedding is
pure; `{**article, 'score': score}` builds a fresh dict): the output is a
permutation of the input articles each extended with a `score` field, every
output record comes from an input record by setting `score` to its computed
score, the `score` field holds exactly that value, and all other fields are
preserved verbatim. -/
theorem rank_articles_preserves_fields (boost : List (String × Int)) (arts : List Article) :
    List.Perm (rank_articles boost arts)
      (arts.map (fun a => pySet a "score" (PyVal.int (_calculate_score boost a)))) ∧
    (∀ b ∈ rank_articles boost arts, ∃ a ∈ arts,
      b = pySet a "score" (PyVal.int (_calculate_score boost a)) ∧
      List.lookup "score" b = some (PyVal.int (_calculate_score boost a)) ∧
      b.filter (fun e => e.1 ≠ "score") = a.filter (fun e => e.1 ≠ "score")) := by
  refine ⟨sortScoreDesc_perm _, ?_⟩
  intro b hb
  have hmem := (sortScoreDesc_perm _).subset hb
  rcases List.mem_map.mp hmem with ⟨a, ha, rfl⟩
  exact ⟨a, ha, rfl, lookup_pySet a "score" _, filter_pySet a "score" _⟩

/-! ## Helper lemmas: the word-boundary pattern -/

theorem optAll_not_word (o : Option Char) :
    (o.all (fun c => !isWordChar c) = true) ↔ wordOpt o = false := by
  cases o <;> simp [wordOpt]

theorem wordOpt_some (c : Char) : wordOpt (some c) = isWordChar c := rfl

theorem isBoundary_right_word {a : Option Char} {c : Char} (hc : isWordChar c = true) :
    isBoundary a (some c) = true ↔ wordOpt a = false := by
  unfold isBoundary
  rw [wordOpt_some, hc]
  cases h : wordOpt a <;> simp [h]

theorem isBoundary_left_word {b : Option Char} {c : Char} (hc : isWordChar c = true) :
    isBoundary (some c) b = true ↔ wordOpt b = false := by
  unfold isBoundary
  rw [wordOpt_some, hc]
  cases h : wordOpt b <;> simp [h]

theorem getLast_suffix_word {al : List Char} (hne : al ≠ [])
    (hl : al.getLast?.all isWordChar = true) {sfx : List Char} (hs : sfx ∈ pluralSuffixes) :
    ∃ c, (al ++ sfx).getLast? = some c ∧ isWordChar c = true := by
  simp only [pluralSuffixes, List.mem_cons] at hs
  rcases hs with rfl | rfl | rfl | rfl | hs
  · rcases List.eq_nil_or_concat al with rfl | ⟨l, a, rfl⟩
    · exact absurd rfl hne
    · rw [List.concat_eq_append] at hl ⊢
      refine ⟨a, ?_, ?_⟩
      · simp [List.getLast?_concat]
      · have h2 : (l ++ [a]).getLast? = some a := List.getLast?_concat _
        rw [h2] at hl
        simpa using hl
  · exact ⟨'s', List.getLast?_concat _, by decide⟩
  · refine ⟨'s', ?_, by decide⟩
    rw [show ['e', 's'] = ['e'] ++ ['s'] from rfl, ← List.append_assoc]
    exact List.getLast?_concat _
  · refine ⟨'s', ?_, by decide⟩
    rw [show ['i', 'e', 's'] = ['i', 'e'] ++ ['s'] from rfl, ← List.append_assoc]
    exact List.getLast?_concat _
  · exact absurd hs (List.not_mem_nil sfx)

theorem head?_append_left {al : List Char} (rest : List Char) (hne : al ≠ []) :
    (al ++ rest).head? = al.head? := by
  cases al with
  | nil => exact absurd rfl hne
  | cons c cs => rfl

theorem getLast?_cons_isSome (d : Char) (ds : List Char) :
    ∃ x, (d :: ds).getLast? = some x := by
  induction ds generalizing d with
  | nil => exact ⟨d, rfl⟩
  | cons e es ih =>
    obtain ⟨x, hx⟩ := ih e
    exact ⟨x, by rw [List.getLast?_cons_cons]; exact hx⟩

theorem endNeighbor_cons (c : Char) (pre : List Char) (prev : Option Char) :
    endNeighbor (c :: pre) prev = endNeighbor pre (some c) := by
  cases pre with
  | nil => rfl
  | cons d ds =>
    obtain ⟨x, hx⟩ := getLast?_cons_isSome d ds
    simp [endNeighbor, List.getLast?_cons_cons, hx]

theorem matchesAt_iff {al : List Char} (hne : al ≠ [])
    (hh : al.head?.all isWordChar = true) (hl : al.getLast?.all isWordChar = true)
    (prev : Option Char) (rest : List Char) :
    matchesAt al prev rest = true ↔
      (wordOpt prev = false ∧ ∃ sfx post, sfx ∈ pluralSuffixes ∧
        rest = al ++ (sfx ++ post) ∧ wordOpt post.head? = false) := by
  obtain ⟨h0, tl, rfl⟩ : ∃ h0 tl, al = h0 :: tl := by
    cases al with
    | nil => exact absurd rfl hne
    | cons h0 tl => exact ⟨h0, tl, rfl⟩
  have hw0 : isWordChar h0 = true := by simpa using hh
  constructor
  · intro h
    unfold matchesAt at h
    rw [Bool.and_eq_true] at h
    obtain ⟨h1, h2⟩ := h
    rw [List.any_eq_true] at h2
    obtain ⟨sfx, hs, h3⟩ := h2
    rw [Bool.and_eq_true] at h3
    obtain ⟨hp, hb2⟩ := h3
    obtain ⟨post, hpost⟩ := List.isPrefixOf_iff_prefix.mp hp
    obtain ⟨cl, hcl, hclw⟩ := getLast_suffix_word hne hl hs
    have hrest : rest = (h0 :: tl) ++ (sfx ++ post) := by
      rw [← hpost, List.append_assoc]
    refine ⟨?_, sfx, post, hs, hrest, ?_⟩
    · rw [hrest] at h1
      have : ((h0 :: tl) ++ (sfx ++ post)).head? = some h0 := rfl
      rw [this] at h1
      exact (isBoundary_right_word hw0).mp h1
    · have hdrop : rest.drop ((h0 :: tl) ++ sfx).length = post := by
        rw [← hpost]
        exact List.drop_left _ _
      rw [hdrop] at hb2
      unfold endNeighbor at hb2
      rw [hcl] at hb2
      exact (isBoundary_left_word hclw).mp hb2
  · rintro ⟨hprev, sfx, post, hs, heq, hpost⟩
    obtain ⟨cl, hcl, hclw⟩ := getLast_suffix_word hne hl hs
    subst heq
    unfold matchesAt
    rw [Bool.and_eq_true]
    constructor
    · have : ((h0 :: tl) ++ (sfx ++ post)).head? = some h0 := rfl
      rw [this]
      exact (isBoundary_right_word hw0).mpr hprev
    · rw [List.any_eq_true]
      refine ⟨sfx, hs, ?_⟩
      rw [Bool.and_eq_true]
      constructor
      · rw [List.isPrefixOf_iff_prefix, ← List.append_assoc]
        exact List.prefix_append _ _
      · have hdrop : ((h0 :: tl) ++ (sfx ++ post)).drop ((h0 :: tl) ++ sfx).length = post := by
          rw [← List.append_assoc]
          exact List.drop_left _ _
        rw [hdrop]
        unfold endNeighbor
        rw [hcl]
        exact (isBoundary_left_word hclw).mpr hpost

theorem searchFrom_iff {al : List Char} (hne : al ≠ [])
    (hh : al.head?.all isWordChar = true) (hl : al.getLast?.all isWordChar = true) :
    ∀ (rest : List Char) (prev : Option Char),
      searchFrom al prev rest = true ↔
        ∃ pre sfx post, sfx ∈ pluralSuffixes ∧ rest = pre ++ (al ++ (sfx ++ post)) ∧
          wordOpt (endNeighbor pre prev) = false ∧ wordOpt post.head? = false := by
  intro rest
  induction rest with
  | nil =>
    intro prev
    constructor
    · intro h
      rw [searchFrom, matchesAt_iff hne hh hl] at h
      obtain ⟨_, sfx, post, _, heq, _⟩ := h
      have h2 := heq.symm
      rw [List.append_eq_nil] at h2
      exact absurd h2.1 hne
    · rintro ⟨pre, sfx, post, hs, heq, _, _⟩
      have h2 := heq.symm
      rw [List.append_eq_nil, List.append_eq_nil] at h2
      exact absurd h2.2.1 hne
  | cons c cs ih =>
    intro prev
    rw [searchFrom, Bool.or_eq_true, matchesAt_iff hne hh hl, ih (some c)]
    constructor
    · rintro (⟨hprev, sfx, post, hs, heq, hpost⟩ | ⟨pre', sfx, post, hs, heq, hend, hpost⟩)
      · exact ⟨[], sfx, post, hs, by simpa using heq, by simpa [endNeighbor] using hprev,
          hpost⟩
      · refine ⟨c :: pre', sfx, post, hs, by simp [heq], ?_, hpost⟩
        rw [endNeighbor_cons]
        exact hend
    · rintro ⟨pre, sfx, post, hs, heq, hend, hpost⟩
      cases pre with
      | nil =>
        left
        exact ⟨by simpa [endNeighbor] using hend, sfx, post, hs, by simpa using heq, hpost⟩
      | cons c' pre' =>
        right
        rw [List.cons_append, List.cons.injEq] at heq
        obtain ⟨rfl, heq2⟩ := heq
        refine ⟨pre', sfx, post, hs, heq2, ?_, hpost⟩
        rw [← endNeighbor_cons]
        exact hend

theorem endNeighbor_none_all (pre : List Char) :
    wordOpt (endNeighbor pre none) = false ↔
      pre.getLast?.all (fun c => !isWordChar c) = true := by
  unfold endNeighbor
  cases h : pre.getLast? <;> simp [wordOpt]

/-! ## Claim C6: whole-word matching with plural tolerance -/

/-- Claim C6: the matcher's pattern accepts exactly the texts in which the
alias occurs with a word boundary on each side, optionally followed
directly by `s`, `es` or `ies` before the trailing boundary (stated for
aliases that start and end with word characters, as every normalized
non-empty alias does). -/
theorem regexSearch_whole_word (al t : List Char) (hne : al ≠ [])
    (hh : al.head?.all isWordChar = true) (hl : al.getLast?.all isWordChar = true) :
    regexSearch al t = true ↔
      ∃ pre sfx post, sfx ∈ pluralSuffixes ∧ t = pre ++ (al ++ (sfx ++ post)) ∧
        pre.getLast?.all (fun c => !isWordChar c) = true ∧
        post.head?.all (fun c => !isWordChar c) = true := by
  rw [regexSearch, searchFrom_iff hne hh hl t none]
  constructor
  · rintro ⟨pre, sfx, post, hs, heq, hend, hpost⟩
    exact ⟨pre, sfx, post, hs, heq, (endNeighbor_none_all pre).mp hend,
      (optAll_not_word _).mpr hpost⟩
  · rintro ⟨pre, sfx, post, hs, heq, hend, hpost⟩
    exact ⟨pre, sfx, post, hs, heq, (endNeighbor_none_all pre).mpr hend,
      (optAll_not_word _).mp hpost⟩

/-- Witness for C6: `"survey"` matches in `"using surveys here"` (with the
decomposition the theorem asserts) but not in `"surveying here"`, and
accordingly the methods dictionary credits `survey-data` for the former
text only. -/
theorem regexSearch_whole_word_witness :
    ("survey".data ≠ [] ∧ "survey".data.head?.all isWordChar = true ∧
      "survey".data.getLast?.all isWordChar = true) ∧
    (∃ pre sfx post, sfx ∈ pluralSuffixes ∧
      "using surveys here".data = pre ++ ("survey".data ++ (sfx ++ post)) ∧
      pre.getLast?.all (fun c => !isWordChar c) = true ∧
      post.head?.all (fun c => !isWordChar c) = true) ∧
    regexSearch "survey".data "using surveys here".data = true ∧
    regexSearch "survey".data "surveying here".data = false ∧
    "survey-data" ∈ _match_keywords "conducting surveys" METHOD_KEYWORDS ∧
    "survey-data" ∉ _match_keywords "surveying practice" METHOD_KEYWORDS :=
  ⟨⟨by decide, by decide, by decide⟩,
   (regexSearch_whole_word "survey".data "using surveys here".data (by decide) (by decide)
     (by decide)).mp (by decide),
   by decide, by decide, by decide, by decide⟩

/-! ## Helper lemmas: character-class stability under normalization -/

theorem char_le_iff_toNat (a b : Char) : a ≤ b ↔ a.toNat ≤ b.toNat := by
  rw [Char.le_def]
  exact ge_iff_le

theorem toNat_ofNat_valid (n : Nat) (h : n.isValidChar) : (Char.ofNat n).toNat = n := by
  unfold Char.ofNat
  rw [dif_pos h]
  rfl

theorem pyToLower_not_upper (c : Char) :
    ('A' ≤ pyToLower c && pyToLower c ≤ 'Z') = false := by
  unfold pyToLower
  by_cases h : ('A' ≤ c && c ≤ 'Z') = true
  · rw [if_pos h]
    rw [Bool.and_eq_true, decide_eq_true_eq, decide_eq_true_eq] at h
    have hA : ('A' : Char).toNat = 65 := by decide
    have hZ : ('Z' : Char).toNat = 90 := by decide
    have h1 : 65 ≤ c.toNat := by
      have h' := (char_le_iff_toNat 'A' c).mp h.1
      rw [hA] at h'
      exact h'
    have h2 : c.toNat ≤ 90 := by
      have h' := (char_le_iff_toNat c 'Z').mp h.2
      rw [hZ] at h'
      exact h'
    have hv : (c.toNat + 32).isValidChar := Or.inl (by omega)
    have ht : (Char.ofNat (c.toNat + 32)).toNat = c.toNat + 32 := toNat_ofNat_valid _ hv
    have hz : ¬(Char.ofNat (c.toNat + 32) ≤ 'Z') := by
      rw [char_le_iff_toNat, ht, hZ]
      omega
    rw [Bool.and_eq_false_iff]
    right
    exact decide_eq_false hz
  · rw [if_neg h]
    exact Bool.eq_false_iff.mpr h

theorem pyToLower_fix {c : Char} (h : ('A' ≤ c && c ≤ 'Z') = false) : pyToLower c = c := by
  unfold pyToLower
  rw [h]
  rfl

theorem pyToLower_idem (c : Char) : pyToLower (pyToLower c) = pyToLower c :=
  pyToLower_fix (pyToLower_not_upper c)

theorem subRunsGo_not_p {p : Char → Bool} {r : Char} (hr : p r = false) :
    ∀ (l : List Char) (b : Bool) (c : Char), c ∈ subRunsGo p r b l → p c = false := by
  intro l
  induction l with
  | nil => intro b c hc; simp [subRunsGo] at hc
  | cons d ds ih =>
    intro b c hc
    rw [subRunsGo] at hc
    by_cases hd : p d = true
    · rw [if_pos hd] at hc
      cases b with
      | true => exact ih true c hc
      | false =>
        rcases List.mem_cons.mp hc with rfl | hc
        · exact hr
        · exact ih true c hc
    · rw [if_neg hd] at hc
      rcases List.mem_cons.mp hc with rfl | hc
      · exact Bool.eq_false_iff.mpr hd
      · exact ih false c hc

theorem mem_subRunsGo {p : Char → Bool} {r : Char} :
    ∀ (l : List Char) (b : Bool) (c : Char), c ∈ subRunsGo p r b l → c = r ∨ c ∈ l := by
  intro l
  induction l with
  | nil => intro b c hc; simp [subRunsGo] at hc
  | cons d ds ih =>
    intro b c hc
    rw [subRunsGo] at hc
    by_cases hd : p d = true
    · rw [if_pos hd] at hc
      cases b with
      | true =>
        rcases ih true c hc with h | h
        · exact Or.inl h
        · exact Or.inr (List.mem_cons_of_mem d h)
      | false =>
        rcases List.mem_cons.mp hc with rfl | hc
        · exact Or.inl rfl
        · rcases ih true c hc with h | h
          · exact Or.inl h
          · exact Or.inr (List.mem_cons_of_mem d h)
    · rw [if_neg hd] at hc
      rcases List.mem_cons.mp hc with rfl | hc
      · exact Or.inr (List.mem_cons_self c ds)
      · rcases ih false c hc with h | h
        · exact Or.inl h
        · exact Or.inr (List.mem_cons_of_mem d h)

theorem subRunsGo_id {p : Char → Bool} {r : Char} :
    ∀ l : List Char, (∀ c ∈ l, p c = false) → subRunsGo p r false l = l := by
  intro l
  induction l with
  | nil => intro _; rfl
  | cons d ds ih =>
    intro h
    rw [subRunsGo, if_neg (by simp [h d (List.mem_cons_self d ds)])]
    rw [ih (fun c hc => h c (List.mem_cons_of_mem d hc))]

theorem map_id_of_mem {f : Char → Char} :
    ∀ l : List Char, (∀ c ∈ l, f c = c) → l.map f = l := by
  intro l
  induction l with
  | nil => intro _; rfl
  | cons d ds ih =>
    intro h
    rw [List.map_cons, h d (List.mem_cons_self d ds),
      ih (fun c hc => h c (List.mem_cons_of_mem d hc))]

theorem mapQuote_idem (c : Char) : mapQuote (mapQuote c) = mapQuote c := by
  unfold mapQuote
  split
  · rfl
  · rfl

theorem stripPunct_idem (c : Char) : stripPunct (stripPunct c) = stripPunct c := by
  unfold stripPunct
  split
  · rfl
  · rfl

/-! ## Helper lemmas: word splitting and joining -/

theorem isEmpty_false_of_ne_nil {l : List Char} (h : l ≠ []) : l.isEmpty = false := by
  cases l with
  | nil => exact absurd rfl h
  | cons c cs => rfl

theorem wordsAux_good :
    ∀ (l acc : List Char), (∀ c ∈ acc, isPySpace c = false) →
      ∀ w ∈ wordsAux acc l, w ≠ [] ∧ ∀ c ∈ w, isPySpace c = false := by
  intro l
  induction l with
  | nil =>
    intro acc hacc w hw
    rw [wordsAux] at hw
    by_cases he : acc.isEmpty
    · rw [if_pos he] at hw
      simp at hw
    · rw [if_neg he] at hw
      rw [List.mem_singleton] at hw
      subst hw
      refine ⟨?_, ?_⟩
      · intro hrev
        exact he (by simp [List.reverse_eq_nil_iff.mp hrev])
      · intro c hc
        exact hacc c (List.mem_reverse.mp hc)
  | cons d ds ih =>
    intro acc hacc w hw
    rw [wordsAux] at hw
    by_cases hd : isPySpace d = true
    · rw [if_pos hd] at hw
      by_cases he : acc.isEmpty
      · rw [if_pos he] at hw
        exact ih [] (by simp) w hw
      · rw [if_neg he] at hw
        rcases List.mem_cons.mp hw with rfl | hw
        · refine ⟨?_, ?_⟩
          · intro hrev
            exact he (by simp [List.reverse_eq_nil_iff.mp hrev])
          · intro c hc
            exact hacc c (List.mem_reverse.mp hc)
        · exact ih [] (by simp) w hw
    · rw [if_neg hd] at hw
      refine ih (d :: acc) ?_ w hw
      intro c hc
      rcases List.mem_cons.mp hc with rfl | hc
      · exact Bool.eq_false_iff.mpr hd
      · exact hacc c hc

theorem wordsAux_chars :
    ∀ (l acc : List Char), ∀ w ∈ wordsAux acc l, ∀ c ∈ w, c ∈ l ∨ c ∈ acc := by
  intro l
  induction l with
  | nil =>
    intro acc w hw c hc
    rw [wordsAux] at hw
    by_cases he : acc.isEmpty
    · rw [if_pos he] at hw
      simp at hw
    · rw [if_neg he] at hw
      rw [List.mem_singleton] at hw
      subst hw
      exact Or.inr (List.mem_reverse.mp hc)
  | cons d ds ih =>
    intro acc w hw c hc
    rw [wordsAux] at hw
    by_cases hd : isPySpace d = true
    · rw [if_pos hd] at hw
      by_cases he : acc.isEmpty
      · rw [if_pos he] at hw
        rcases ih [] w hw c hc with h | h
        · exact Or.inl (List.mem_cons_of_mem d h)
        · simp at h
      · rw [if_neg he] at hw
        rcases List.mem_cons.mp hw with rfl | hw
        · exact Or.inr (List.mem_reverse.mp hc)
        · rcases ih [] w hw c hc with h | h
          · exact Or.inl (List.mem_cons_of_mem d h)
          · simp at h
    · rw [if_neg hd] at hw
      rcases ih (d :: acc) w hw c hc with h | h
      · exact Or.inl (List.mem_cons_of_mem d h)
      · rcases List.mem_cons.mp h with rfl | h
        · exact Or.inl (List.mem_cons_self c ds)
        · exact Or.inr h

theorem joinSp_single (w : List Char) : joinSp [w] = w := rfl

theorem joinSp_cons_cons (w w2 : List Char) (ws : List (List Char)) :
    joinSp (w :: w2 :: ws) = w ++ ' ' :: joinSp (w2 :: ws) := rfl

theorem joinSp_chars :
    ∀ (ws : List (List Char)) (c : Char), c ∈ joinSp ws → c = ' ' ∨ ∃ w ∈ ws, c ∈ w := by
  intro ws
  induction ws with
  | nil => intro c hc; simp [joinSp] at hc
  | cons w ws' ih =>
    intro c hc
    cases ws' with
    | nil =>
      rw [joinSp_single] at hc
      exact Or.inr ⟨w, by simp, hc⟩
    | cons w2 ws'' =>
      rw [joinSp_cons_cons] at hc
      rcases List.mem_append.mp hc with h | h
      · exact Or.inr ⟨w, by simp, h⟩
      · rcases List.mem_cons.mp h with rfl | h
        · exact Or.inl rfl
        · rcases ih c h with h2 | ⟨w3, hw3, hc3⟩
          · exact Or.inl h2
          · exact Or.inr ⟨w3, List.mem_cons_of_mem _ hw3, hc3⟩

theorem wordsAux_append_word :
    ∀ (w acc l : List Char), (∀ c ∈ w, isPySpace c = false) →
      wordsAux acc (w ++ l) = wordsAux (w.reverse ++ acc) l := by
  intro w
  induction w with
  | nil => intro acc l _; simp
  | cons c w' ih =>
    intro acc l hw
    rw [List.cons_append, wordsAux, if_neg (by simp [hw c (List.mem_cons_self c w')])]
    rw [ih (c :: acc) l (fun d hd => hw d (List.mem_cons_of_mem c hd))]
    simp

theorem words_join :
    ∀ ws : List (List Char),
      (∀ w ∈ ws, w ≠ [] ∧ ∀ c ∈ w, isPySpace c = false) →
      pySplit (joinSp ws) = ws := by
  intro ws
  induction ws with
  | nil => intro _; rfl
  | cons w ws' ih =>
    intro h
    obtain ⟨hwne, hwns⟩ := h w (List.mem_cons_self w ws')
    have hrevne : w.reverse ≠ [] := by
      intro hre
      exact hwne (by simpa using List.reverse_eq_nil_iff.mp hre)
    cases ws' with
    | nil =>
      show wordsAux [] (joinSp [w]) = [w]
      have hj : joinSp [w] = w ++ [] := by rw [joinSp_single, List.append_nil]
      rw [hj, wordsAux_append_word w [] [] hwns, List.append_nil]
      rw [wordsAux, if_neg (fun hc => hrevne (List.isEmpty_iff.mp hc))]
      simp
    | cons w2 ws'' =>
      show wordsAux [] (joinSp (w :: w2 :: ws'')) = w :: w2 :: ws''
      rw [joinSp_cons_cons, wordsAux_append_word w [] _ hwns, List.append_nil]
      rw [wordsAux, if_pos (show isPySpace ' ' = true by decide),
        if_neg (fun hc => hrevne (List.isEmpty_iff.mp hc))]
      rw [List.reverse_reverse]
      have h2 := ih (fun w' hw' => h w' (List.mem_cons_of_mem w hw'))
      exact congrArg (List.cons w) h2

/-! ## Claim C8: idempotence of the normalizer -/

theorem mapQuote_cases (d : Char) : mapQuote d = apostropheChar ∨ mapQuote d = d := by
  unfold mapQuote
  split
  · exact Or.inl rfl
  · exact Or.inr rfl

theorem stripPunct_cases (e : Char) : stripPunct e = e ∨ stripPunct e = ' ' := by
  unfold stripPunct
  split
  · exact Or.inl rfl
  · exact Or.inr rfl

theorem normalized_chars_stable (l : List Char) :
    ∀ c ∈ ((subRuns isHyphUnd ' ' (l.map pyToLower)).map mapQuote).map stripPunct,
      pyToLower c = c ∧ isHyphUnd c = false ∧ mapQuote c = c ∧ stripPunct c = c := by
  intro c hc
  rcases List.mem_map.mp hc with ⟨e, he, rfl⟩
  rcases List.mem_map.mp he with ⟨d, hd, rfl⟩
  rw [subRuns] at hd
  have hdnh : isHyphUnd d = false := subRunsGo_not_p (by decide) _ _ _ hd
  have hdmem : d = ' ' ∨ d ∈ l.map pyToLower := mem_subRunsGo _ _ _ hd
  rcases mapQuote_cases d with hq | hq
  · rw [hq]
    exact ⟨by decide, by decide, by decide, by decide⟩
  · rw [hq]
    rcases stripPunct_cases d with hk | hk
    · rw [hk]
      have hlow : pyToLower d = d := by
        rcases hdmem with rfl | hmem
        · decide
        · rcases List.mem_map.mp hmem with ⟨x, _, rfl⟩
          exact pyToLower_idem x
      exact ⟨hlow, hdnh, hq, hk⟩
    · rw [hk]
      exact ⟨by decide, by decide, by decide, by decide⟩

theorem _normalizeList_idem (l : List Char) :
    _normalizeList (_normalizeList l) = _normalizeList l := by
  by_cases hl : l.isEmpty = true
  · have h0 : _normalizeList l = [] := by rw [_normalizeList, if_pos hl]
    rw [h0]
    rfl
  · have hdef : _normalizeList l =
        joinSp (pySplit (((subRuns isHyphUnd ' ' (l.map pyToLower)).map mapQuote).map
          stripPunct)) := by
      rw [_normalizeList, if_neg hl]
    by_cases hout : (_normalizeList l).isEmpty = true
    · have h0 : _normalizeList l = [] := List.isEmpty_iff.mp hout
      rw [h0]
      rfl
    · have hgood : ∀ w ∈ pySplit (((subRuns isHyphUnd ' ' (l.map pyToLower)).map mapQuote).map
          stripPunct), w ≠ [] ∧ ∀ c ∈ w, isPySpace c = false :=
        wordsAux_good _ [] (by simp)
      have hchar : ∀ c ∈ _normalizeList l,
          pyToLower c = c ∧ isHyphUnd c = false ∧ mapQuote c = c ∧ stripPunct c = c := by
        intro c hc
        rw [hdef] at hc
        rcases joinSp_chars _ c hc with rfl | ⟨w, hw, hcw⟩
        · exact ⟨by decide, by decide, by decide, by decide⟩
        · have hcY : c ∈ ((subRuns isHyphUnd ' ' (l.map pyToLower)).map mapQuote).map
              stripPunct := by
            rcases wordsAux_chars _ [] w hw c hcw with h | h
            · exact h
            · simp at h
          exact normalized_chars_stable l c hcY
      have e1 : (_normalizeList l).map pyToLower = _normalizeList l :=
        map_id_of_mem _ (fun c hc => (hchar c hc).1)
      have e2 : subRuns isHyphUnd ' ' (_normalizeList l) = _normalizeList l := by
        rw [subRuns]
        exact subRunsGo_id _ (fun c hc => (hchar c hc).2.1)
      have e3 : (_normalizeList l).map mapQuote = _normalizeList l :=
        map_id_of_mem _ (fun c hc => (hchar c hc).2.2.1)
      have e4 : (_normalizeList l).map stripPunct = _normalizeList l :=
        map_id_of_mem _ (fun c hc => (hchar c hc).2.2.2)
      calc _normalizeList (_normalizeList l)
          = joinSp (pySplit (((subRuns isHyphUnd ' '
              ((_normalizeList l).map pyToLower)).map mapQuote).map stripPunct)) := by
            rw [_normalizeList, if_neg hout]
        _ = joinSp (pySplit (_normalizeList l)) := by rw [e1, e2, e3, e4]
        _ = joinSp (pySplit (joinSp (pySplit (((subRuns isHyphUnd ' '
              (l.map pyToLower)).map mapQuote).map stripPunct)))) := by rw [hdef]
        _ = joinSp (pySplit (((subRuns isHyphUnd ' '
              (l.map pyToLower)).map mapQuote).map stripPunct)) := by
            rw [words_join _ hgood]
        _ = _normalizeList l := hdef.symm

/-- Claim C8: the text normalizer is idempotent —
`_normalize (_normalize t) = _normalize t` for every text `t`. -/
theorem normalize_idempotent (t : String) : _normalize (_normalize t) = _normalize t :=
  congrArg String.mk (_normalizeList_idem t.data)

/-! ## Claim C9: the normalizer pipeline matches the spec wording

The only step where the code and the spec read differently is the last one:
the code computes `' '.join(text.split())`, the spec says "collapse all
whitespace runs to single spaces and trim"; the following lemmas prove the
two agree on every input. -/

theorem trimTrail_cons_nonspace {c : Char} (hc : isPySpace c = false) (m : List Char) :
    trimTrail (c :: m) = c :: trimTrail m := by
  rw [trimTrail]
  simp [hc]

theorem wordsAux_acc_ne_nil : ∀ (l acc : List Char), acc ≠ [] → wordsAux acc l ≠ [] := by
  intro l
  induction l with
  | nil =>
    intro acc h
    rw [wordsAux, if_neg (fun h0 => h (List.isEmpty_iff.mp h0))]
    simp
  | cons d ds ih =>
    intro acc h
    rw [wordsAux]
    by_cases hd : isPySpace d = true
    · rw [if_pos hd, if_neg (fun h0 => h (List.isEmpty_iff.mp h0))]
      simp
    · rw [if_neg hd]
      exact ih (d :: acc) (by simp)

theorem words_empty_iff : ∀ cs : List Char,
    wordsAux [] cs = [] ↔ ∀ c ∈ cs, isPySpace c = true := by
  intro cs
  induction cs with
  | nil => simp [wordsAux]
  | cons d ds ih =>
    by_cases hd : isPySpace d = true
    · rw [wordsAux, if_pos hd, if_pos (show ([] : List Char).isEmpty = true from rfl)]
      simp [hd, ih]
    · rw [wordsAux, if_neg hd]
      constructor
      · intro h0
        exact absurd h0 (wordsAux_acc_ne_nil ds [d] (by simp))
      · intro hall
        exact absurd (hall d (List.mem_cons_self d ds)) hd

theorem trimTrail_go_true_empty_iff : ∀ cs : List Char,
    trimTrail (subRunsGo isPySpace ' ' true cs) = [] ↔ ∀ c ∈ cs, isPySpace c = true := by
  intro cs
  induction cs with
  | nil => simp [subRunsGo, trimTrail]
  | cons d ds ih =>
    by_cases hd : isPySpace d = true
    · rw [subRunsGo, if_pos hd, if_pos rfl]
      simp [hd, ih]
    · rw [subRunsGo, if_neg hd]
      constructor
      · intro h0
        rw [trimTrail_cons_nonspace (Bool.eq_false_iff.mpr hd)] at h0
        exact absurd h0 (by simp)
      · intro hall
        exact absurd (hall d (List.mem_cons_self d ds)) hd

theorem dropWhile_go_true : ∀ cs : List Char,
    (subRunsGo isPySpace ' ' true cs).dropWhile isPySpace =
      subRunsGo isPySpace ' ' true cs := by
  intro cs
  induction cs with
  | nil => rfl
  | cons d ds ih =>
    by_cases hd : isPySpace d = true
    · rw [subRunsGo, if_pos hd, if_pos rfl]
      exact ih
    · rw [subRunsGo, if_neg hd, List.dropWhile_cons, if_neg hd]

theorem dropWhile_go_false_eq_true : ∀ cs : List Char,
    (subRunsGo isPySpace ' ' false cs).dropWhile isPySpace =
      (subRunsGo isPySpace ' ' true cs).dropWhile isPySpace := by
  intro cs
  cases cs with
  | nil => rfl
  | cons d ds =>
    by_cases hd : isPySpace d = true
    · rw [subRunsGo, if_pos hd, if_neg (by simp)]
      rw [subRunsGo, if_pos hd, if_pos rfl]
      rw [List.dropWhile_cons, if_pos (show isPySpace ' ' = true by decide)]
    · rw [subRunsGo, if_neg hd, subRunsGo, if_neg hd]

theorem split_join_eq_collapse : ∀ t : List Char,
    (joinSp (wordsAux [] t) =
      trimTrail ((subRunsGo isPySpace ' ' false t).dropWhile isPySpace)) ∧
    (∀ acc : List Char, acc ≠ [] →
      joinSp (wordsAux acc t) = acc.reverse ++ trimTrail (subRunsGo isPySpace ' ' false t)) := by
  intro t
  induction t with
  | nil =>
    constructor
    · rfl
    · intro acc hacc
      rw [wordsAux, if_neg (fun h0 => hacc (List.isEmpty_iff.mp h0))]
      rw [joinSp_single]
      show acc.reverse = acc.reverse ++ trimTrail []
      rw [show trimTrail [] = [] from rfl, List.append_nil]
  | cons c cs ih =>
    obtain ⟨ih1, ih2⟩ := ih
    by_cases hc : isPySpace c = true
    · have e2 : subRunsGo isPySpace ' ' false (c :: cs) =
          ' ' :: subRunsGo isPySpace ' ' true cs := by
        rw [subRunsGo, if_pos hc, if_neg (by simp)]
      constructor
      · have e1 : wordsAux [] (c :: cs) = wordsAux [] cs := by
          rw [wordsAux, if_pos hc, if_pos (show ([] : List Char).isEmpty = true from rfl)]
        rw [e1, e2, List.dropWhile_cons, if_pos (show isPySpace ' ' = true by decide)]
        rw [← dropWhile_go_false_eq_true cs]
        exact ih1
      · intro acc hacc
        have e3 : wordsAux acc (c :: cs) = acc.reverse :: wordsAux [] cs := by
          rw [wordsAux, if_pos hc, if_neg (fun h0 => hacc (List.isEmpty_iff.mp h0))]
        rw [e3, e2]
        by_cases hall : wordsAux [] cs = []
        · have hsp : ∀ x ∈ cs, isPySpace x = true := (words_empty_iff cs).mp hall
          have htt : trimTrail (subRunsGo isPySpace ' ' true cs) = [] :=
            (trimTrail_go_true_empty_iff cs).mpr hsp
          have htt0 : trimTrail (' ' :: subRunsGo isPySpace ' ' true cs) = [] := by
            rw [trimTrail, htt]
            simp [show isPySpace ' ' = true from by decide]
          rw [hall, joinSp_single, htt0, List.append_nil]
        · have htt : trimTrail (subRunsGo isPySpace ' ' true cs) ≠ [] := by
            intro h0
            exact hall ((words_empty_iff cs).mpr ((trimTrail_go_true_empty_iff cs).mp h0))
          have htt1 : trimTrail (' ' :: subRunsGo isPySpace ' ' true cs) =
              ' ' :: trimTrail (subRunsGo isPySpace ' ' true cs) := by
            rw [trimTrail]
            simp [isEmpty_false_of_ne_nil htt]
          obtain ⟨w2, ws'', hws⟩ : ∃ w2 ws'', wordsAux [] cs = w2 :: ws'' := by
            cases hws : wordsAux [] cs with
            | nil => exact absurd hws hall
            | cons a b => exact ⟨a, b, rfl⟩
          rw [hws, joinSp_cons_cons, ← hws, htt1]
          have hmid : joinSp (wordsAux [] cs) =
              trimTrail (subRunsGo isPySpace ' ' true cs) := by
            rw [ih1, dropWhile_go_false_eq_true cs, dropWhile_go_true cs]
          rw [hmid]
    · have hc' : isPySpace c = false := Bool.eq_false_iff.mpr hc
      have e2 : subRunsGo isPySpace ' ' false (c :: cs) =
          c :: subRunsGo isPySpace ' ' false cs := by
        rw [subRunsGo, if_neg hc]
      constructor
      · have e1 : wordsAux [] (c :: cs) = wordsAux [c] cs := by
          rw [wordsAux, if_neg hc]
        rw [e1, e2, List.dropWhile_cons, if_neg hc, trimTrail_cons_nonspace hc']
        rw [ih2 [c] (by simp)]
        rfl
      · intro acc hacc
        have e3 : wordsAux acc (c :: cs) = wordsAux (c :: acc) cs := by
          rw [wordsAux, if_neg hc]
        rw [e3, ih2 (c :: acc) (by simp), e2, trimTrail_cons_nonspace hc']
        rw [List.reverse_cons, List.append_assoc]
        rfl

theorem join_split_eq_specCollapse (l : List Char) : joinSp (pySplit l) = specCollapse l :=
  (split_join_eq_collapse l).1

/-- Claim C9: `_normalize` agrees with the spec's description on every input
(null or empty to the empty string; otherwise lowercase, collapse
hyphen/underscore runs to a single space, normalize typographic quotes to
the ASCII apostrophe, replace characters outside word/whitespace/Latin
Extended-A by a space, and collapse whitespace runs with trimming). -/
theorem normalize_matches_spec (t : Option String) : _normalizeOpt t = spec_normalize t := by
  cases t with
  | none => rfl
  | some s =>
    by_cases hs : s = ""
    · subst hs
      rfl
    · have hne : s.data ≠ [] := by
        intro h0
        apply hs
        apply String.ext
        rw [h0]
      show _normalize s = spec_normalize (some s)
      rw [spec_normalize, if_neg hs]
      unfold _normalize _normalizeList
      rw [if_neg (fun h0 => hne (List.isEmpty_iff.mp h0))]
      exact congrArg String.mk (join_split_eq_specCollapse _)
